import Mathlib

/-!
Shallow embedding of the word-alignment evaluation core: the labeled-alignment
data model with the in-place `sure ⊆ possible` repair, the precision / recall /
AER metric engine (`metrics.py`), and the corpus preprocessing helpers
(`preprocessing.py`): ampersand escaping, alignment-token parsing, vocabulary
construction and sentence tokenization.  Mutation of the reference list in
`compute_precision` is modelled by explicit state passing: the function returns
the repaired reference alongside its numeric result.
-/

set_option autoImplicit false

namespace AlignEval

/-- `LabeledAlignment`: the `sure` and `possible` alignment pair lists of one
sentence (positions are 1-indexed source/target token positions). -/
structure LabeledAlignment where
  sure : List (Int × Int)
  possible : List (Int × Int)
deriving DecidableEq, Repr

/-- The inner repair loop of `compute_precision`: for each pair of `sure` (in
order), append it to the accumulated `possible` list when it is not already a
member.  Mirrors `for pair in sent.sure: if pair not in sent.possible:
sent.possible.append(pair)`. -/
def appendMissing (ps : List (Int × Int)) (sure : List (Int × Int)) : List (Int × Int) :=
  sure.foldl (fun acc p => if p ∈ acc then acc else acc ++ [p]) ps

/-- Repair of one `LabeledAlignment`: `possible` absorbs the missing `sure`
pairs, `sure` is untouched. -/
def repairOne (a : LabeledAlignment) : LabeledAlignment :=
  { a with possible := appendMissing a.possible a.sure }

/-- The repair pass `compute_precision` runs over the whole reference list. -/
def repair (reference : List LabeledAlignment) : List LabeledAlignment :=
  reference.map repairOne

/-- Numerator of precision: over the zipped overlap of reference and predicted,
count predicted pairs (with multiplicity) lying in the sentence's `possible`
list. -/
def precisionNum (reference : List LabeledAlignment)
    (predicted : List (List (Int × Int))) : Nat :=
  ((reference.zip predicted).map
    (fun rp => (rp.2.filter (fun pair => decide (pair ∈ rp.1.possible))).length)).sum

/-- Numerator of recall: predicted pairs (with multiplicity) lying in the
sentence's `sure` list, summed over the zipped overlap. -/
def recallNum (reference : List LabeledAlignment)
    (predicted : List (List (Int × Int))) : Nat :=
  ((reference.zip predicted).map
    (fun rp => (rp.2.filter (fun pair => decide (pair ∈ rp.1.sure))).length)).sum

/-- `compute_precision`.  The Python function first mutates `reference` in
place (the repair loop) and then computes `(A_intersect_P, A)`; here the
repaired reference is returned as the second component. -/
def compute_precision (reference : List LabeledAlignment)
    (predicted : List (List (Int × Int))) : (Nat × Nat) × List LabeledAlignment :=
  let ref := repair reference
  ((precisionNum ref predicted, (predicted.map List.length).sum), ref)

/-- `compute_recall`: `(A_intersect_S, S)`; reads `sure` only, no mutation. -/
def compute_recall (reference : List LabeledAlignment)
    (predicted : List (List (Int × Int))) : Nat × Nat :=
  (recallNum reference predicted, (reference.map (fun r => r.sure.length)).sum)

/-- `compute_aer`: calls `compute_precision` (which repairs the reference) and
then `compute_recall` on the repaired reference, and returns
`1 - (A∩P + A∩S) / (A + S)`.  The Python division raises `ZeroDivisionError`
when `A + S = 0`; that outcome is `none`. -/
def compute_aer (reference : List LabeledAlignment)
    (predicted : List (List (Int × Int))) : Option ℚ :=
  let pr := compute_precision reference predicted
  let re := compute_recall pr.2 predicted
  if pr.1.2 + re.2 = 0 then none
  else some (1 - ((pr.1.1 : ℚ) + (re.1 : ℚ)) / ((pr.1.2 : ℚ) + (re.2 : ℚ)))

end AlignEval

namespace AlignEval

theorem mem_appendMissing_left {p : Int × Int} {ps sure : List (Int × Int)}
    (h : p ∈ ps) : p ∈ appendMissing ps sure := by
  induction sure generalizing ps with
  | nil => exact h
  | cons q rest ih =>
    simp only [appendMissing, List.foldl_cons]
    by_cases hq : q ∈ ps
    · simp only [if_pos hq]
      exact ih h
    · simp only [if_neg hq]
      exact ih (List.mem_append_left _ h)

theorem mem_appendMissing_of_mem_sure {p : Int × Int} {ps sure : List (Int × Int)}
    (h : p ∈ sure) : p ∈ appendMissing ps sure := by
  induction sure generalizing ps with
  | nil => cases h
  | cons q rest ih =>
    simp only [appendMissing, List.foldl_cons]
    rcases List.mem_cons.mp h with hpq | hrest
    · subst hpq
      by_cases hq : p ∈ ps
      · simp only [if_pos hq]
        exact mem_appendMissing_left hq
      · simp only [if_neg hq]
        exact mem_appendMissing_left (List.mem_append_right _ (List.mem_singleton.mpr rfl))
    · by_cases hq : q ∈ ps
      · simp only [if_pos hq]; exact ih hrest
      · simp only [if_neg hq]; exact ih hrest

theorem appendMissing_eq_self {ps sure : List (Int × Int)}
    (h : ∀ p ∈ sure, p ∈ ps) : appendMissing ps sure = ps := by
  induction sure with
  | nil => rfl
  | cons q rest ih =>
    simp only [appendMissing, List.foldl_cons, if_pos (h q (List.mem_cons_self q rest))]
    exact ih (fun p hp => h p (List.mem_cons_of_mem _ hp))

theorem repairOne_sure (a : LabeledAlignment) : (repairOne a).sure = a.sure := rfl

theorem sure_subset_possible_repairOne (a : LabeledAlignment) :
    ∀ p ∈ (repairOne a).sure, p ∈ (repairOne a).possible := by
  intro p hp
  exact mem_appendMissing_of_mem_sure hp

theorem repairOne_idem (a : LabeledAlignment) : repairOne (repairOne a) = repairOne a := by
  unfold repairOne
  simp only [LabeledAlignment.mk.injEq]
  exact ⟨trivial, appendMissing_eq_self (fun p hp => mem_appendMissing_of_mem_sure hp)⟩

theorem repair_idem (reference : List LabeledAlignment) :
    repair (repair reference) = repair reference := by
  unfold repair
  rw [List.map_map]
  exact List.map_congr_left (fun a _ => repairOne_idem a)

/-- `recall` only reads `sure`, which `repair` preserves. -/
theorem recallNum_repair (reference : List LabeledAlignment)
    (predicted : List (List (Int × Int))) :
    recallNum (repair reference) predicted = recallNum reference predicted := by
  induction reference generalizing predicted with
  | nil => rfl
  | cons a ref ih =>
    cases predicted with
    | nil => rfl
    | cons p ps =>
      simp only [recallNum, repair, List.zip, List.map_cons, List.zipWith_cons_cons, List.map,
        List.sum_cons, repairOne_sure]
      have h := ih ps
      simp only [recallNum, repair, List.zip] at h
      rw [h]

theorem compute_recall_repair (reference : List LabeledAlignment)
    (predicted : List (List (Int × Int))) :
    compute_recall (repair reference) predicted = compute_recall reference predicted := by
  unfold compute_recall
  rw [recallNum_repair]
  congr 1
  unfold repair
  rw [List.map_map]
  rfl

/-- Character-level model of `filedata.replace('&', '&amp;')` in
`extract_sentences`: every ampersand occurrence, escaped or not, becomes the
five characters `&amp;`. -/
def escapeAmpsList : List Char → List Char
  | [] => []
  | c :: cs =>
    if c = '&' then '&' :: 'a' :: 'm' :: 'p' :: ';' :: escapeAmpsList cs
    else c :: escapeAmpsList cs

/-- The whole-document ampersand normalization of `extract_sentences`. -/
def escapeAmps (s : String) : String := String.mk (escapeAmpsList s.data)

/-- Modelled from the spec: the structural parser (`xml.etree`, outside this
repository) decodes the entity reference `&amp;` back to the character `&`;
only this entity is relevant to the ampersand normalization. -/
def decodeAmpsList : List Char → List Char
  | [] => []
  | '&' :: 'a' :: 'm' :: 'p' :: ';' :: rest => '&' :: decodeAmpsList rest
  | c :: cs => c :: decodeAmpsList cs

/-- Entity decoding of a whole document. -/
def decodeAmps (s : String) : String := String.mk (decodeAmpsList s.data)

theorem decodeAmpsList_cons_ne (c : Char) (cs : List Char) (hc : c ≠ '&') :
    decodeAmpsList (c :: cs) = c :: decodeAmpsList cs := by
  rw [decodeAmpsList.eq_def]
  split <;> simp_all [decodeAmpsList]

theorem decodeAmpsList_escapeAmpsList (l : List Char) :
    decodeAmpsList (escapeAmpsList l) = l := by
  induction l with
  | nil => rfl
  | cons c cs ih =>
    by_cases hc : c = '&'
    · subst hc
      have e1 : escapeAmpsList ('&' :: cs)
          = '&' :: 'a' :: 'm' :: 'p' :: ';' :: escapeAmpsList cs := rfl
      have e2 : decodeAmpsList ('&' :: 'a' :: 'm' :: 'p' :: ';' :: escapeAmpsList cs)
          = '&' :: decodeAmpsList (escapeAmpsList cs) := rfl
      rw [e1, e2, ih]
    · have e1 : escapeAmpsList (c :: cs) = c :: escapeAmpsList cs := by
        simp only [escapeAmpsList, if_neg hc]
      rw [e1, decodeAmpsList_cons_ne c _ hc, ih]

theorem escapeAmpsList_of_no_amp {l : List Char} (h : ∀ c ∈ l, c ≠ '&') :
    escapeAmpsList l = l := by
  induction l with
  | nil => rfl
  | cons c cs ih =>
    simp only [escapeAmpsList, if_neg (h c (List.mem_cons_self c cs))]
    rw [ih (fun d hd => h d (List.mem_cons_of_mem c hd))]

/-- C5, counterexample: the normalization escapes the ampersand of an existing
`&amp;` entity, so re-applying it to its own output changes the parsed
content: `&` escapes to `&amp;`, which re-escapes to `&amp;amp;`, and the two
parse to different text. -/
theorem escape_not_only_raw_amps :
    escapeAmps "&amp;" = "&amp;amp;" ∧
    decodeAmps (escapeAmps (escapeAmps "&")) ≠ decodeAmps (escapeAmps "&") := by
  constructor
  · rfl
  · decide

/-- C5, amended: a single escape-then-parse pass recovers the document exactly
(so one application never alters token content), and on documents containing
no ampersand at all the escape is the identity, hence idempotent; but on its
own output the escape is not idempotent in general (see the counterexample). -/
theorem escape_roundtrip_and_idempotent_on_amp_free :
    (∀ s : String, decodeAmps (escapeAmps s) = s) ∧
    (∀ s : String, (∀ c ∈ s.data, c ≠ '&') →
      decodeAmps (escapeAmps (escapeAmps s)) = decodeAmps (escapeAmps s)) := by
  constructor
  · intro s
    cases s with
    | mk l => simp only [escapeAmps, decodeAmps, decodeAmpsList_escapeAmpsList]
  · intro s h
    cases s with
    | mk l =>
      have h2 : escapeAmpsList l = l := escapeAmpsList_of_no_amp h
      show String.mk (decodeAmpsList (escapeAmpsList (escapeAmpsList l)))
          = String.mk (decodeAmpsList (escapeAmpsList l))
      rw [h2]
      rw [h2]

/-- Witness for C5's amended theorem at a concrete ampersand-free document. -/
theorem escape_roundtrip_witness :
    decodeAmps (escapeAmps "abc") = "abc" ∧
    decodeAmps (escapeAmps (escapeAmps "abc")) = decodeAmps (escapeAmps "abc") :=
  ⟨escape_roundtrip_and_idempotent_on_amp_free.1 "abc",
   escape_roundtrip_and_idempotent_on_amp_free.2 "abc" (by decide)⟩

/-- Python `str.split(sep)` for a single-character separator, at character
level: `"1-2-3".split('-') == ["1","2","3"]`, `"1-".split('-') == ["1",""]`. -/
def splitOnChar (sep : Char) : List Char → List (List Char)
  | [] => [[]]
  | c :: cs =>
    match splitOnChar sep cs with
    | [] => [[]]
    | g :: gs => if c = sep then [] :: g :: gs else (c :: g) :: gs

/-- Python `str.split()` (no argument): split on whitespace, dropping empty
fragments. -/
def splitWsAux : List Char → List (List Char)
  | [] => [[]]
  | c :: cs =>
    match splitWsAux cs with
    | [] => [[]]
    | g :: gs => if c.isWhitespace then [] :: g :: gs else (c :: g) :: gs

/-- `text.split()` on a string. -/
def pySplitWs (s : String) : List String :=
  ((splitWsAux s.data).filter (fun g => g ≠ [])).map String.mk

/-- `pair.split('-')` on a string. -/
def pySplitDash (s : String) : List String :=
  (splitOnChar '-' s.data).map String.mk

/-- Python `int()` restricted to the fragments produced here: succeeds exactly
on nonempty all-digit strings, returning their decimal value (`int('')` and
non-numeric fragments raise `ValueError`, modelled as `none`). -/
def parsePyInt (s : String) : Option Int :=
  if s.data ≠ [] ∧ s.data.all Char.isDigit then
    some ((s.data.foldl (fun n c => 10 * n + (c.toNat - 48)) 0 : Nat) : Int)
  else none

/-- `tuple(map(int, pair.split('-')))` of `extract_sentences`: parse every
dash-separated fragment as an integer; the tuple length is whatever the split
produced (the exception raised by `int` on a bad fragment is `none`). -/
def parseAlignmentToken (tok : String) : Option (List Int) :=
  (pySplitDash tok).mapM parsePyInt

/-- The alignment-annotation parse of one `sure`/`possible` text field:
`[tuple(map(int, pair.split('-'))) for pair in text.split()]`, the first
raised exception aborting the whole list. -/
def parseAlignmentText (text : String) : Option (List (List Int)) :=
  (pySplitWs text).mapM parseAlignmentToken

/-- C6: evaluation at the failing input.  A token with three integer parts is
*not* rejected: `"1-2-3"` parses to the triple `[1,2,3]` and the record is
kept, while only non-numeric fragments abort the load. -/
theorem malformed_alignment_token_accepted :
    parseAlignmentToken "1-2-3" = some [1, 2, 3] ∧
    parseAlignmentText "1-2-3 4-5" = some [[1, 2, 3], [4, 5]] ∧
    parseAlignmentToken "a-2" = none ∧
    parseAlignmentText "1-2 a-2" = none := by
  refine ⟨by decide, by decide, by decide, by decide⟩

/-- `SentencePair`: token lists of one source/target sentence pair. -/
structure SentencePair where
  source : List String
  target : List String
deriving DecidableEq, Repr

/-- `TokenizedSentencePair`: vocabulary-index sequences of one sentence pair
(the numpy arrays are index sequences). -/
structure TokenizedSentencePair where
  source_tokens : List Nat
  target_tokens : List Nat
deriving DecidableEq, Repr

/-- Lookup in a Python dict represented as its ordered key/value list. -/
def dictLookup (d : List (String × Nat)) (k : String) : Option Nat :=
  (d.find? (fun e => e.1 == k)).map Prod.snd

/-- `tokenize_sents`: map each token present in its vocabulary to its index
(absent tokens are dropped by the comprehension's filter) and append the pair
to the answer only when both resulting sides are non-empty. -/
def tokenize_sents (sentence_pairs : List SentencePair)
    (source_dict target_dict : List (String × Nat)) : List TokenizedSentencePair :=
  sentence_pairs.foldl
    (fun ans sent_pair =>
      let new_src := sent_pair.source.filterMap (dictLookup source_dict)
      let new_trg := sent_pair.target.filterMap (dictLookup target_dict)
      if 0 < new_src.length ∧ 0 < new_trg.length then
        ans ++ [⟨new_src, new_trg⟩]
      else ans)
    []

theorem isEmpty_eq_false_of_pos {α : Type} {l : List α} (h : 0 < l.length) :
    l.isEmpty = false := by
  cases l with
  | nil => exact absurd h (lt_irrefl 0)
  | cons a l => rfl

theorem isEmpty_eq_true_of_not_pos {α : Type} {l : List α} (h : ¬ 0 < l.length) :
    l.isEmpty = true := by
  cases l with
  | nil => rfl
  | cons a l => exact absurd (Nat.succ_pos _) h

theorem tokenize_sents_foldl_aux (source_dict target_dict : List (String × Nat))
    (sentence_pairs : List SentencePair) (acc : List TokenizedSentencePair) :
    sentence_pairs.foldl
      (fun ans sent_pair =>
        let new_src := sent_pair.source.filterMap (dictLookup source_dict)
        let new_trg := sent_pair.target.filterMap (dictLookup target_dict)
        if 0 < new_src.length ∧ 0 < new_trg.length then
          ans ++ [⟨new_src, new_trg⟩]
        else ans)
      acc
    = acc ++ (sentence_pairs.map
        (fun p => TokenizedSentencePair.mk (p.source.filterMap (dictLookup source_dict))
          (p.target.filterMap (dictLookup target_dict)))).filter
        (fun t => !t.source_tokens.isEmpty && !t.target_tokens.isEmpty) := by
  induction sentence_pairs generalizing acc with
  | nil => simp
  | cons p ps ih =>
    simp only [List.foldl_cons, List.map_cons, List.filter_cons]
    rw [ih]
    by_cases hs : 0 < (p.source.filterMap (dictLookup source_dict)).length
    · by_cases ht : 0 < (p.target.filterMap (dictLookup target_dict)).length
      · rw [if_pos ⟨hs, ht⟩]
        rw [isEmpty_eq_false_of_pos hs, isEmpty_eq_false_of_pos ht]
        simp
      · rw [if_neg (fun h => ht h.2)]
        rw [isEmpty_eq_true_of_not_pos ht]
        simp
    · rw [if_neg (fun h => hs h.1)]
      rw [isEmpty_eq_true_of_not_pos hs]
      simp

/-- C8: `tokenize_sents` maps in-vocabulary tokens to their indices in order,
drops out-of-vocabulary tokens, keeps only pairs with both sides non-empty and
preserves the order of retained pairs; the concrete scenario keeps
`(["a","x"],["b"])` as `([0],[1])` and excludes `(["x"],["b"])`. -/
theorem tokenize_sents_drops_and_filters (sentence_pairs : List SentencePair)
    (source_dict target_dict : List (String × Nat)) :
    tokenize_sents sentence_pairs source_dict target_dict
      = (sentence_pairs.map
          (fun p => TokenizedSentencePair.mk
            (p.source.filterMap (dictLookup source_dict))
            (p.target.filterMap (dictLookup target_dict)))).filter
          (fun t => !t.source_tokens.isEmpty && !t.target_tokens.isEmpty) ∧
    tokenize_sents [⟨["a", "x"], ["b"]⟩, ⟨["x"], ["b"]⟩]
        [("a", 0), ("b", 1)] [("a", 0), ("b", 1)]
      = [⟨[0], [1]⟩] := by
  constructor
  · simpa using tokenize_sents_foldl_aux source_dict target_dict sentence_pairs []
  · decide

/-- `Counter[word] += 1` on a counter kept as its ordered key/count list:
an existing key's count is bumped in place, a new key is appended (Python
dicts preserve insertion order). -/
def counterAdd (c : List (String × Nat)) (w : String) : List (String × Nat) :=
  if c.any (fun e => e.1 == w) then
    c.map (fun e => if e.1 == w then (e.1, e.2 + 1) else e)
  else c ++ [(w, 1)]

/-- Count every word of a sentence, left to right. -/
def counterAddWords (c : List (String × Nat)) (ws : List String) : List (String × Nat) :=
  ws.foldl counterAdd c

/-- The source-side frequency counter of `get_token_to_index`. -/
def enCounter (sentence_pairs : List SentencePair) : List (String × Nat) :=
  sentence_pairs.foldl (fun c p => counterAddWords c p.source) []

/-- The target-side frequency counter of `get_token_to_index`. -/
def czCounter (sentence_pairs : List SentencePair) : List (String × Nat) :=
  sentence_pairs.foldl (fun c p => counterAddWords c p.target) []

/-- Stable insertion by descending count: the new entry goes after every
already-placed entry with a count at least as large, which is the tie-break
`Counter.most_common` inherits from Python's stable sort. -/
def insertByCount (x : String × Nat) : List (String × Nat) → List (String × Nat)
  | [] => [x]
  | y :: ys => if x.2 ≤ y.2 then y :: insertByCount x ys else x :: y :: ys

/-- Stable sort of a counter by descending count (insertion order preserved
among equal counts). -/
def sortByCountDesc (c : List (String × Nat)) : List (String × Nat) :=
  c.foldl (fun acc x => insertByCount x acc) []

/-- `Counter.most_common(n)`: all entries sorted by descending count when `n`
is `None`, otherwise the first `n` of them. -/
def mostCommon (c : List (String × Nat)) : Option Nat → List (String × Nat)
  | none => sortByCountDesc c
  | some n => (sortByCountDesc c).take n

/-- One step of a Python dict comprehension: a later entry with an existing
key overwrites that key's value in place, a new key is appended. -/
def dictInsert (d : List (String × Nat)) (kv : String × Nat) : List (String × Nat) :=
  if d.any (fun e => e.1 == kv.1) then
    d.map (fun e => if e.1 == kv.1 then (e.1, kv.2) else e)
  else d ++ [kv]

/-- A Python dict built from a key/value sequence. -/
def pyDict (l : List (String × Nat)) : List (String × Nat) :=
  l.foldl dictInsert []

/-- `word[0]` of a Python string as a one-character string (tokens produced by
`split()` are nonempty). -/
def firstCharStr (w : String) : String := String.mk (w.data.take 1)

/-- `get_token_to_index`.  When `freq_cutoff is not None` the code iterates
the counters themselves — so `word` is a *key string* and `word[0]` its first
character, with no cutoff applied; when `freq_cutoff is None` it iterates
`most_common(None)` — so `word` is a `(token, count)` entry and `word[0]` the
full token. -/
def get_token_to_index (sentence_pairs : List SentencePair) (freq_cutoff : Option Nat) :
    List (String × Nat) × List (String × Nat) :=
  let en_counter := enCounter sentence_pairs
  let cz_counter := czCounter sentence_pairs
  if freq_cutoff ≠ none then
    (pyDict (en_counter.enum.map (fun p => (firstCharStr p.2.1, p.1))),
     pyDict (cz_counter.enum.map (fun p => (firstCharStr p.2.1, p.1))))
  else
    (pyDict ((mostCommon en_counter freq_cutoff).enum.map (fun p => (p.2.1, p.1))),
     pyDict ((mostCommon cz_counter freq_cutoff).enum.map (fun p => (p.2.1, p.1))))

/-- Corpus on which the finite-cutoff branch misbehaves. -/
def bugPairs : List SentencePair := [⟨["ab", "ac"], ["x"]⟩]

/-- Number of occurrences of a token on the source side of a corpus. -/
def srcOccCount (sentence_pairs : List SentencePair) (t : String) : Nat :=
  ((sentence_pairs.map SentencePair.source).flatten).count t

/-- Number of occurrences of a token on the target side of a corpus. -/
def trgOccCount (sentence_pairs : List SentencePair) (t : String) : Nat :=
  ((sentence_pairs.map SentencePair.target).flatten).count t

/-- C1: evaluation at the failing input.  With `freq_cutoff = 2` on the corpus
`[["ab","ac"]]` the source mapping is `{"a": 1}`: its only key `"a"` is the
first *character* of the tokens, not a token of the corpus; the cutoff is
ignored; and the assigned indices are `{1}`, not `[0, vocabulary_size)`. -/
theorem finite_cutoff_first_char_bug :
    (get_token_to_index bugPairs (some 2)).1 = [("a", 1)] ∧
    (∀ k ∈ (get_token_to_index bugPairs (some 2)).1.map Prod.fst,
      ¬ ∃ p ∈ bugPairs, k ∈ p.source) ∧
    (get_token_to_index bugPairs (some 2)).1.map Prod.snd
      ≠ List.range (get_token_to_index bugPairs (some 2)).1.length := by
  refine ⟨by decide, by decide, by decide⟩

/-- Corpus separating first-seen order from frequency order: `"a"` is seen
first but `"b"` is more frequent. -/
def ordPairs : List SentencePair := [⟨["a", "b", "b"], ["x"]⟩]

/-- C2, counterexample: with `freq_cutoff = None` the indices follow
descending frequency (`most_common`), not first-seen insertion order: the
source mapping is `{"b": 0, "a": 1}`, not `{"a": 0, "b": 1}`. -/
theorem unbounded_not_insertion_order :
    (get_token_to_index ordPairs none).1 = [("b", 0), ("a", 1)] ∧
    (get_token_to_index ordPairs none).1 ≠ [("a", 0), ("b", 1)] := by
  refine ⟨by decide, by decide⟩

theorem counterAdd_any_iff (c : List (String × Nat)) (w : String) :
    (c.any (fun e => e.1 == w)) = true ↔ w ∈ c.map Prod.fst := by
  rw [List.any_eq_true]
  constructor
  · rintro ⟨e, he, hbe⟩
    exact (beq_iff_eq.mp hbe) ▸ List.mem_map_of_mem Prod.fst he
  · intro h
    obtain ⟨e, he, hef⟩ := List.mem_map.mp h
    exact ⟨e, he, beq_iff_eq.mpr hef⟩

theorem counterAdd_keys_mem {c : List (String × Nat)} {w : String}
    (h : w ∈ c.map Prod.fst) :
    (counterAdd c w).map Prod.fst = c.map Prod.fst := by
  unfold counterAdd
  rw [if_pos ((counterAdd_any_iff c w).mpr h), List.map_map]
  refine List.map_congr_left ?_
  intro e _
  by_cases he : e.1 = w <;> simp [he]

theorem counterAdd_keys_not_mem {c : List (String × Nat)} {w : String}
    (h : w ∉ c.map Prod.fst) :
    (counterAdd c w).map Prod.fst = c.map Prod.fst ++ [w] := by
  unfold counterAdd
  rw [if_neg (fun hc => h ((counterAdd_any_iff c w).mp hc)), List.map_append]
  rfl

theorem counterAdd_nodup {c : List (String × Nat)} {w : String}
    (h : (c.map Prod.fst).Nodup) :
    ((counterAdd c w).map Prod.fst).Nodup := by
  by_cases hw : w ∈ c.map Prod.fst
  · rw [counterAdd_keys_mem hw]; exact h
  · rw [counterAdd_keys_not_mem hw]
    simp [List.nodup_append, h, hw]

theorem counterAdd_mem_keys (c : List (String × Nat)) (w t : String) :
    t ∈ (counterAdd c w).map Prod.fst ↔ t ∈ c.map Prod.fst ∨ t = w := by
  by_cases hw : w ∈ c.map Prod.fst
  · rw [counterAdd_keys_mem hw]
    constructor
    · exact Or.inl
    · rintro (ht | rfl)
      · exact ht
      · exact hw
  · rw [counterAdd_keys_not_mem hw]
    simp [List.mem_append]

theorem counterAdd_values {c : List (String × Nat)} {w : String} {ws : List String}
    (hvals : ∀ e ∈ c, e.2 = ws.count e.1)
    (hkeys : ∀ t : String, t ∈ c.map Prod.fst ↔ t ∈ ws) :
    ∀ e ∈ counterAdd c w, e.2 = (ws ++ [w]).count e.1 := by
  intro e he
  rw [List.count_append]
  unfold counterAdd at he
  by_cases hw : w ∈ c.map Prod.fst
  · rw [if_pos ((counterAdd_any_iff c w).mpr hw)] at he
    obtain ⟨e₀, he₀, rfl⟩ := List.mem_map.mp he
    by_cases h1 : e₀.1 = w
    · simp only [h1, beq_self_eq_true, if_true]
      rw [hvals e₀ he₀, h1]
      simp [List.count_singleton]
    · have hbne : ¬ ((e₀.1 == w) = true) := by simpa using h1
      rw [if_neg hbne]
      have hz : ([w].count e₀.1) = 0 := by
        rw [List.count_eq_zero]
        simp [h1]
      rw [hz, hvals e₀ he₀, Nat.add_zero]
  · rw [if_neg (fun hc => hw ((counterAdd_any_iff c w).mp hc))] at he
    rcases List.mem_append.mp he with hec | hew
    · have h1 : e.1 ≠ w := by
        intro h1
        exact hw (h1 ▸ List.mem_map_of_mem Prod.fst hec)
      have : ([w].count e.1) = 0 := by
        rw [List.count_eq_zero]
        simp [h1]
      rw [this, hvals e hec, Nat.add_zero]
    · have : e = (w, 1) := by simpa using hew
      subst this
      have hnw : w ∉ ws := fun h => hw ((hkeys w).mpr h)
      simp [List.count_eq_zero.mpr hnw, List.count_singleton]

theorem counter_invariant (ws : List String) :
    ((counterAddWords [] ws).map Prod.fst).Nodup ∧
    (∀ e ∈ counterAddWords [] ws, e.2 = ws.count e.1) ∧
    (∀ t : String, t ∈ (counterAddWords [] ws).map Prod.fst ↔ t ∈ ws) := by
  induction ws using List.reverseRecOn with
  | nil =>
    refine ⟨List.nodup_nil, ?_, ?_⟩
    · intro e he; cases he
    · intro t; simp [counterAddWords]
  | append_singleton ws w ih =>
    obtain ⟨hnd, hv, hk⟩ := ih
    have hfold : counterAddWords [] (ws ++ [w]) = counterAdd (counterAddWords [] ws) w := by
      simp [counterAddWords, List.foldl_append]
    refine ⟨?_, ?_, ?_⟩
    · rw [hfold]; exact counterAdd_nodup hnd
    · rw [hfold]; exact counterAdd_values hv hk
    · intro t
      rw [hfold, counterAdd_mem_keys, hk t]
      simp [List.mem_append]

theorem mem_insertByCount (x a : String × Nat) (l : List (String × Nat)) :
    a ∈ insertByCount x l ↔ a = x ∨ a ∈ l := by
  induction l with
  | nil => simp [insertByCount]
  | cons y ys ih =>
    unfold insertByCount
    by_cases hx : x.2 ≤ y.2
    · rw [if_pos hx]
      simp only [List.mem_cons, ih]
      tauto
    · rw [if_neg hx]
      simp [List.mem_cons]

theorem insertByCount_perm (x : String × Nat) (l : List (String × Nat)) :
    List.Perm (insertByCount x l) (x :: l) := by
  induction l with
  | nil => exact List.Perm.refl _
  | cons y ys ih =>
    unfold insertByCount
    by_cases hx : x.2 ≤ y.2
    · rw [if_pos hx]
      exact (ih.cons y).trans (List.Perm.swap x y ys)
    · rw [if_neg hx]

theorem insertByCount_pairwise (x : String × Nat) {l : List (String × Nat)}
    (h : l.Pairwise (fun a b => b.2 ≤ a.2)) :
    (insertByCount x l).Pairwise (fun a b => b.2 ≤ a.2) := by
  induction l with
  | nil => simp [insertByCount]
  | cons y ys ih =>
    obtain ⟨hy, hys⟩ := List.pairwise_cons.mp h
    unfold insertByCount
    by_cases hx : x.2 ≤ y.2
    · rw [if_pos hx]
      refine List.pairwise_cons.mpr ⟨?_, ih hys⟩
      intro b hb
      rcases (mem_insertByCount x b ys).mp hb with rfl | hb
      · exact hx
      · exact hy b hb
    · rw [if_neg hx]
      refine List.pairwise_cons.mpr ⟨?_, h⟩
      intro b hb
      rcases List.mem_cons.mp hb with rfl | hb
      · exact le_of_lt (lt_of_not_le hx)
      · exact le_trans (hy b hb) (le_of_lt (lt_of_not_le hx))

theorem sortByCountDesc_perm_aux (c acc : List (String × Nat)) :
    List.Perm (c.foldl (fun a x => insertByCount x a) acc) (acc ++ c) := by
  induction c generalizing acc with
  | nil => simp
  | cons x cs ih =>
    simp only [List.foldl_cons]
    refine ((ih (insertByCount x acc)).trans ?_)
    refine (((insertByCount_perm x acc).append_right cs).trans ?_)
    exact List.perm_middle.symm

theorem sortByCountDesc_perm (c : List (String × Nat)) :
    List.Perm (sortByCountDesc c) c := by
  simpa using sortByCountDesc_perm_aux c []

theorem sortByCountDesc_pairwise_aux (c acc : List (String × Nat))
    (h : acc.Pairwise (fun a b => b.2 ≤ a.2)) :
    (c.foldl (fun a x => insertByCount x a) acc).Pairwise (fun a b => b.2 ≤ a.2) := by
  induction c generalizing acc with
  | nil => exact h
  | cons x cs ih =>
    simp only [List.foldl_cons]
    exact ih _ (insertByCount_pairwise x h)

theorem sortByCountDesc_pairwise (c : List (String × Nat)) :
    (sortByCountDesc c).Pairwise (fun a b => b.2 ≤ a.2) :=
  sortByCountDesc_pairwise_aux c [] List.Pairwise.nil

theorem pyDict_aux (l acc : List (String × Nat))
    (hdisj : ∀ k ∈ l.map Prod.fst, k ∉ acc.map Prod.fst)
    (hnd : (l.map Prod.fst).Nodup) :
    l.foldl dictInsert acc = acc ++ l := by
  induction l generalizing acc with
  | nil => simp
  | cons kv l ih =>
    have hk : kv.1 ∉ acc.map Prod.fst := hdisj kv.1 (by simp)
    have step : dictInsert acc kv = acc ++ [kv] := by
      unfold dictInsert
      rw [if_neg (fun hc => hk ((counterAdd_any_iff acc kv.1).mp hc))]
    have hnd' : ((kv :: l).map Prod.fst).Nodup := hnd
    rw [List.map_cons, List.nodup_cons] at hnd'
    have hdisj' : ∀ k ∈ l.map Prod.fst, k ∉ (acc ++ [kv]).map Prod.fst := by
      intro k hkl
      rw [List.map_append, List.mem_append]
      rintro (hka | hkv)
      · exact hdisj k (List.mem_cons_of_mem _ hkl) hka
      · have hk2 : k = kv.1 := by simpa using hkv
        exact hnd'.1 (hk2 ▸ hkl)
    rw [List.foldl_cons, step, ih (acc ++ [kv]) hdisj' hnd'.2]
    simp

theorem pyDict_eq_self {l : List (String × Nat)} (hnd : (l.map Prod.fst).Nodup) :
    pyDict l = l := by
  have := pyDict_aux l [] (by simp) hnd
  simpa [pyDict] using this

/-- The unbounded-branch vocabulary of one language side, as a function of
that side's counter. -/
def vocabOfCounter (c : List (String × Nat)) : List (String × Nat) :=
  pyDict ((sortByCountDesc c).enum.map (fun p => ((p.2).1, p.1)))

theorem vocab_entries_keys (c : List (String × Nat)) :
    ((sortByCountDesc c).enum.map (fun p => ((p.2).1, p.1))).map Prod.fst
      = (sortByCountDesc c).map Prod.fst := by
  calc ((sortByCountDesc c).enum.map (fun p => ((p.2).1, p.1))).map Prod.fst
      = (sortByCountDesc c).enum.map (fun p => (p.2).1) := by rw [List.map_map]; rfl
    _ = ((sortByCountDesc c).enum.map Prod.snd).map Prod.fst := by rw [List.map_map]; rfl
    _ = (sortByCountDesc c).map Prod.fst := by rw [List.enum_map_snd]

theorem vocabOfCounter_spec (ws : List String) :
    (vocabOfCounter (counterAddWords [] ws)).map Prod.snd
        = List.range (vocabOfCounter (counterAddWords [] ws)).length ∧
    (∀ t : String, t ∈ (vocabOfCounter (counterAddWords [] ws)).map Prod.fst ↔ t ∈ ws) ∧
    ((vocabOfCounter (counterAddWords [] ws)).map (fun kv => ws.count kv.1)).Pairwise
      (fun a b => b ≤ a) := by
  obtain ⟨hnd, hv, hk⟩ := counter_invariant ws
  have hperm := sortByCountDesc_perm (counterAddWords [] ws)
  have hkeysn : ((sortByCountDesc (counterAddWords [] ws)).map Prod.fst).Nodup :=
    ((hperm.map Prod.fst).nodup_iff).mpr hnd
  have hval : vocabOfCounter (counterAddWords [] ws)
      = (sortByCountDesc (counterAddWords [] ws)).enum.map (fun p => ((p.2).1, p.1)) :=
    pyDict_eq_self ((vocab_entries_keys _).symm ▸ hkeysn)
  refine ⟨?_, ?_, ?_⟩
  · rw [hval, List.map_map]
    have hcomp : (Prod.snd ∘ fun p : Nat × (String × Nat) => ((p.2).1, p.1)) = Prod.fst := rfl
    rw [hcomp, List.enum_map_fst]
    congr 1
    simp
  · intro t
    rw [hval, vocab_entries_keys, (hperm.map Prod.fst).mem_iff]
    exact hk t
  · rw [hval]
    have hsorted := sortByCountDesc_pairwise (counterAddWords [] ws)
    rw [← List.enum_map_snd (sortByCountDesc (counterAddWords [] ws))] at hsorted
    have henum := List.pairwise_map.mp hsorted
    refine List.pairwise_map.mpr ?_
    refine List.pairwise_map.mpr ?_
    refine henum.imp_of_mem ?_
    intro a b ha hb hab
    have ha2 : a.2 ∈ sortByCountDesc (counterAddWords [] ws) := by
      rw [← List.enum_map_snd (sortByCountDesc (counterAddWords [] ws))]
      exact List.mem_map_of_mem Prod.snd ha
    have hb2 : b.2 ∈ sortByCountDesc (counterAddWords [] ws) := by
      rw [← List.enum_map_snd (sortByCountDesc (counterAddWords [] ws))]
      exact List.mem_map_of_mem Prod.snd hb
    have hac : (a.2).2 = ws.count (a.2).1 := hv a.2 (hperm.mem_iff.mp ha2)
    have hbc : (b.2).2 = ws.count (b.2).1 := hv b.2 (hperm.mem_iff.mp hb2)
    show ws.count ((b.2).1) ≤ ws.count ((a.2).1)
    rw [← hac, ← hbc]
    exact hab

theorem enCounter_eq (sentence_pairs : List SentencePair) :
    enCounter sentence_pairs
      = counterAddWords [] ((sentence_pairs.map SentencePair.source).flatten) := by
  simp [enCounter, counterAddWords, List.foldl_flatten, List.foldl_map]

theorem czCounter_eq (sentence_pairs : List SentencePair) :
    czCounter sentence_pairs
      = counterAddWords [] ((sentence_pairs.map SentencePair.target).flatten) := by
  simp [czCounter, counterAddWords, List.foldl_flatten, List.foldl_map]

theorem get_token_to_index_none (sentence_pairs : List SentencePair) :
    get_token_to_index sentence_pairs none
      = (vocabOfCounter (enCounter sentence_pairs),
         vocabOfCounter (czCounter sentence_pairs)) := by
  simp [get_token_to_index, mostCommon, vocabOfCounter]

/-- C2, amended: with `freq_cutoff = None`, each side's mapping assigns the
indices `0, 1, 2, …` in *descending frequency* order (ties broken by the
counter's insertion order, via the stable sort of `most_common`), and covers
exactly the full vocabulary of that side. -/
theorem unbounded_vocab_characterization (sentence_pairs : List SentencePair) :
    ((get_token_to_index sentence_pairs none).1.map Prod.snd
        = List.range (get_token_to_index sentence_pairs none).1.length ∧
     (get_token_to_index sentence_pairs none).2.map Prod.snd
        = List.range (get_token_to_index sentence_pairs none).2.length) ∧
    ((∀ t : String, t ∈ (get_token_to_index sentence_pairs none).1.map Prod.fst
        ↔ ∃ p ∈ sentence_pairs, t ∈ p.source) ∧
     (∀ t : String, t ∈ (get_token_to_index sentence_pairs none).2.map Prod.fst
        ↔ ∃ p ∈ sentence_pairs, t ∈ p.target)) ∧
    (((get_token_to_index sentence_pairs none).1.map
        (fun kv => srcOccCount sentence_pairs kv.1)).Pairwise (fun a b => b ≤ a) ∧
     ((get_token_to_index sentence_pairs none).2.map
        (fun kv => trgOccCount sentence_pairs kv.1)).Pairwise (fun a b => b ≤ a)) := by
  have h1 : (get_token_to_index sentence_pairs none).1
      = vocabOfCounter (counterAddWords [] ((sentence_pairs.map SentencePair.source).flatten)) := by
    rw [get_token_to_index_none, ← enCounter_eq]
  have h2 : (get_token_to_index sentence_pairs none).2
      = vocabOfCounter (counterAddWords [] ((sentence_pairs.map SentencePair.target).flatten)) := by
    rw [get_token_to_index_none, ← czCounter_eq]
  obtain ⟨hs1, hs2, hs3⟩ := vocabOfCounter_spec ((sentence_pairs.map SentencePair.source).flatten)
  obtain ⟨ht1, ht2, ht3⟩ := vocabOfCounter_spec ((sentence_pairs.map SentencePair.target).flatten)
  refine ⟨⟨by rw [h1]; exact hs1, by rw [h2]; exact ht1⟩, ⟨?_, ?_⟩, ?_, ?_⟩
  · intro t
    rw [h1, hs2 t, List.mem_flatten]
    simp
  · intro t
    rw [h2, ht2 t, List.mem_flatten]
    simp
  · rw [h1]
    exact hs3
  · rw [h2]
    exact ht3

/-- Single-sentence reference of the concrete metric scenario:
`sure = [(1,1)]`, `possible = [(1,1),(2,2)]`. -/
def exRef : List LabeledAlignment := [⟨[(1, 1)], [(1, 1), (2, 2)]⟩]

/-- Predicted alignments of the concrete metric scenario. -/
def exPred : List (List (Int × Int)) := [[(1, 1), (2, 2), (3, 3)]]

/-- Reference whose predicted list repeats a sure pair, driving AER below 0. -/
def negRef : List LabeledAlignment := [⟨[(1, 1)], [(1, 1)]⟩]

/-- Predicted alignments with the pair `(1,1)` repeated three times. -/
def negPred : List (List (Int × Int)) := [[(1, 1), (1, 1), (1, 1)]]

/-- C3: after `compute_precision` (hence after `compute_aer`) the repaired
reference satisfies `sure ⊆ possible` for every sentence; re-running the
metrics on the repaired reference appends nothing further and yields the same
precision, recall and AER values. -/
theorem repair_establishes_subset_and_is_idempotent
    (reference : List LabeledAlignment) (predicted : List (List (Int × Int))) :
    (∀ a ∈ (compute_precision reference predicted).2, ∀ p ∈ a.sure, p ∈ a.possible) ∧
    compute_precision (compute_precision reference predicted).2 predicted
      = ((compute_precision reference predicted).1, (compute_precision reference predicted).2) ∧
    compute_recall (compute_precision reference predicted).2 predicted
      = compute_recall reference predicted ∧
    compute_aer (compute_precision reference predicted).2 predicted
      = compute_aer reference predicted := by
  refine ⟨?_, ?_, ?_, ?_⟩
  · intro a ha p hp
    simp only [compute_precision, repair, List.mem_map] at ha
    obtain ⟨b, _, rfl⟩ := ha
    exact sure_subset_possible_repairOne b p hp
  · simp only [compute_precision, repair_idem]
  · exact compute_recall_repair reference predicted
  · simp only [compute_aer, compute_precision, repair_idem]

/-- C9: the recall denominator is the sum of the `sure` list lengths, and
`compute_recall` is invariant under the repair performed by
`compute_precision` (repair never touches `sure`). -/
theorem recall_denominator_and_repair_invariance
    (reference : List LabeledAlignment) (predicted : List (List (Int × Int))) :
    (compute_recall reference predicted).2 = (reference.map (fun r => r.sure.length)).sum ∧
    compute_recall (compute_precision reference predicted).2 predicted
      = compute_recall reference predicted :=
  ⟨rfl, compute_recall_repair reference predicted⟩

/-- C7: when the combined denominator `A + S` is zero, `compute_aer` yields no
numeric value (the Python division raises `ZeroDivisionError`). -/
theorem aer_undefined_on_zero_denominator
    (reference : List LabeledAlignment) (predicted : List (List (Int × Int)))
    (h : (compute_precision reference predicted).1.2
        + (compute_recall (compute_precision reference predicted).2 predicted).2 = 0) :
    compute_aer reference predicted = none := by
  simp only [compute_aer]
  rw [if_pos h]

/-- Witness for C7: the all-empty corpus has zero denominator and no AER. -/
theorem aer_undefined_on_zero_denominator_witness :
    compute_aer [] [] = none :=
  aer_undefined_on_zero_denominator [] [] (by decide)

theorem compute_aer_eq_of_ne (reference : List LabeledAlignment)
    (predicted : List (List (Int × Int)))
    (h : (compute_precision reference predicted).1.2
        + (compute_recall (compute_precision reference predicted).2 predicted).2 ≠ 0) :
    compute_aer reference predicted
      = some (1 - (((compute_precision reference predicted).1.1 : ℚ)
            + ((compute_recall (compute_precision reference predicted).2 predicted).1 : ℚ))
          / (((compute_precision reference predicted).1.2 : ℚ)
            + ((compute_recall (compute_precision reference predicted).2 predicted).2 : ℚ))) := by
  simp only [compute_aer]
  rw [if_neg h]

theorem compute_aer_negRef : compute_aer negRef negPred = some (-(1 / 2)) := by
  rw [compute_aer_eq_of_ne negRef negPred (by decide)]
  have h1 : (compute_precision negRef negPred).1.1 = 3 := by decide
  have h2 : (compute_precision negRef negPred).1.2 = 3 := by decide
  have h3 : (compute_recall (compute_precision negRef negPred).2 negPred).1 = 3 := by decide
  have h4 : (compute_recall (compute_precision negRef negPred).2 negPred).2 = 1 := by decide
  rw [h1, h2, h3, h4]
  norm_num

/-- C4: whenever the combined denominator is nonzero, `compute_aer` returns
`1 - (precision_num + recall_num) / (precision_den + recall_den)`, the recall
terms being taken on the post-repair reference. -/
theorem aer_formula (reference : List LabeledAlignment)
    (predicted : List (List (Int × Int)))
    (h : (compute_precision reference predicted).1.2
        + (compute_recall (compute_precision reference predicted).2 predicted).2 ≠ 0) :
    compute_aer reference predicted
      = some (1 - (((compute_precision reference predicted).1.1 : ℚ)
            + ((compute_recall (compute_precision reference predicted).2 predicted).1 : ℚ))
          / (((compute_precision reference predicted).1.2 : ℚ)
            + ((compute_recall (compute_precision reference predicted).2 predicted).2 : ℚ))) :=
  compute_aer_eq_of_ne reference predicted h

/-- Witness for C4: the concrete scenario gives precision `(2,3)`,
recall `(1,1)` and AER `1/4`. -/
theorem aer_formula_witness :
    (compute_precision exRef exPred).1 = (2, 3) ∧
    compute_recall exRef exPred = (1, 1) ∧
    compute_aer exRef exPred = some (1 / 4) := by
  refine ⟨by decide, by decide, ?_⟩
  rw [aer_formula exRef exPred (by decide)]
  have h1 : (compute_precision exRef exPred).1.1 = 2 := by decide
  have h2 : (compute_precision exRef exPred).1.2 = 3 := by decide
  have h3 : (compute_recall (compute_precision exRef exPred).2 exPred).1 = 1 := by decide
  have h4 : (compute_recall (compute_precision exRef exPred).2 exPred).2 = 1 := by decide
  rw [h1, h2, h3, h4]
  norm_num

/-- C10: any defined AER value is at most 1 (its numerators are non-negative),
while no lower bound of 0 is enforced: a concrete input yields AER `-1/2`. -/
theorem aer_at_most_one (reference : List LabeledAlignment)
    (predicted : List (List (Int × Int))) (q : ℚ)
    (h : compute_aer reference predicted = some q) :
    q ≤ 1 ∧ ∃ ref pred q₀, compute_aer ref pred = some q₀ ∧ q₀ < 0 := by
  constructor
  · simp only [compute_aer] at h
    split at h
    · cases h
    · have hq := (Option.some_injective _ h).symm
      have hnum : (0 : ℚ) ≤ (((compute_precision reference predicted).1.1 : ℚ)
          + ((compute_recall (compute_precision reference predicted).2 predicted).1 : ℚ)) :=
        add_nonneg (Nat.cast_nonneg _) (Nat.cast_nonneg _)
      have hden : (0 : ℚ) ≤ (((compute_precision reference predicted).1.2 : ℚ)
          + ((compute_recall (compute_precision reference predicted).2 predicted).2 : ℚ)) :=
        add_nonneg (Nat.cast_nonneg _) (Nat.cast_nonneg _)
      have hdiv := div_nonneg hnum hden
      rw [hq]
      linarith
  · exact ⟨negRef, negPred, -(1 / 2), compute_aer_negRef, by norm_num⟩

/-- Witness for C10: applied at the concrete negative-AER input. -/
theorem aer_at_most_one_witness :
    (-(1 / 2) : ℚ) ≤ 1 ∧ ∃ ref pred q₀, compute_aer ref pred = some q₀ ∧ q₀ < 0 :=
  aer_at_most_one negRef negPred (-(1 / 2)) compute_aer_negRef

end AlignEval
